import Mathlib

/-!
# Verification of the GitHub tree utilities in `module/github.py`

This file gives a shallow embedding of the pure content of
`module/github.py` of the repository
`IntroductionToOpenSourceSoftware-FinalTeam09` and proves (or refutes)
the specification claims about it.

Embedding conventions:

* Python strings are Lean `String`s; Python's lexicographic string
  comparison (by code point) coincides with Lean's `String` order.
* Python `dict`s mapping child names to subtrees are embedded as
  association lists kept in strictly ascending key order.  Python
  dictionary equality (`==`) ignores insertion order, so the sorted
  association list is a canonical representative of the dictionary;
  `setdefault` and item assignment become ordered insertions.
* A value in the tree dictionary is either a nested `dict` (directory)
  or `None` (file leaf); this is the inductive `Node` below.
* A Python function that can raise an exception is embedded as an
  `Option`-returning function, `none` meaning that the call raised.
* Network calls (`github_api_get`) are abstracted by explicit oracle
  functions passed as parameters; see `FetchEnv` below.
-/

namespace Github

/-- One record of the flat tree listing returned by the GitHub API:
a slash-separated `path` and a `type` string (`"tree"` marks a
directory, anything else is treated as a file, matching
`item["type"] == "tree"` in `url_tree_dict`). -/
structure TreeEntry where
  path : String
  type : String
deriving DecidableEq

/-- A node of the nested tree dictionary built by `url_tree_dict`:
either a file leaf (Python `None`) or a directory (a nested `dict`,
embedded as an association list in strictly ascending key order). -/
inductive Node where
  | file : Node
  | dir : List (String × Node) → Node

/-- The children map of a directory: the embedding of one Python `dict`
level of `tree_dict`. -/
abbrev Tree := List (String × Node)

mutual
/-- Boolean equality of nodes. -/
def Node.beqN : Node → Node → Bool
  | .file, .file => true
  | .dir c₁, .dir c₂ => beqT c₁ c₂
  | _, _ => false
/-- Boolean equality of children lists. -/
def beqT : Tree → Tree → Bool
  | [], [] => true
  | (k₁, n₁) :: r₁, (k₂, n₂) :: r₂ => k₁ == k₂ && Node.beqN n₁ n₂ && beqT r₁ r₂
  | _, _ => false
end

mutual
theorem beqN_iff : ∀ a b : Node, Node.beqN a b = true ↔ a = b
  | .file, .file => by simp [Node.beqN]
  | .file, .dir _ => by simp [Node.beqN]
  | .dir _, .file => by simp [Node.beqN]
  | .dir c₁, .dir c₂ => by simp [Node.beqN, beqT_iff c₁ c₂]
theorem beqT_iff : ∀ l₁ l₂ : Tree, beqT l₁ l₂ = true ↔ l₁ = l₂
  | [], [] => by simp [beqT]
  | [], (_, _) :: _ => by simp [beqT]
  | (_, _) :: _, [] => by simp [beqT]
  | (k₁, n₁) :: r₁, (k₂, n₂) :: r₂ => by
    simp [beqT, beqN_iff n₁ n₂, beqT_iff r₁ r₂, Bool.and_assoc, and_assoc]
end

instance : DecidableEq Node := fun a b => decidable_of_iff _ (beqN_iff a b)

/-! ### Computable string comparison

Python compares strings lexicographically by code point, which is the
order of Lean's `String` linear order.  Mathlib's decidability
instances for `String` `<`/`≤` go through the iterator-based `ltb` and
do not reduce inside the kernel, so we give an equivalent computation
and install it as the `Decidable` instance used by our definitions. -/

/-- Lexicographic strict comparison of character lists (Python `<` on
strings, by code point). -/
def strLtB : List Char → List Char → Bool
  | [], [] => false
  | [], _ :: _ => true
  | _ :: _, [] => false
  | a :: as, b :: bs =>
    if a < b then true
    else if b < a then false
    else strLtB as bs

theorem strLtB_iff : ∀ as bs : List Char, strLtB as bs = true ↔ as < bs
  | [], [] => by
    simp only [strLtB, Bool.false_eq_true, false_iff]
    exact fun h => by cases h
  | [], _ :: _ => by simp only [strLtB, true_iff]; exact List.Lex.nil
  | a :: as, [] => by
    simp only [strLtB, Bool.false_eq_true, false_iff]
    exact fun h => by cases h
  | a :: as, b :: bs => by
    simp only [strLtB]
    rcases lt_trichotomy a b with hab | hab | hab
    · simp only [hab, if_true, true_iff]
      exact List.Lex.rel hab
    · subst hab
      simp only [lt_irrefl, if_false, strLtB_iff as bs]
      constructor
      · exact fun h => List.Lex.cons h
      · intro h
        cases h with
        | cons h => exact h
        | rel h => exact absurd h (lt_irrefl a)
    · have hab' : ¬ a < b := not_lt_of_gt hab
      simp only [hab, hab', if_false, if_true, Bool.false_eq_true, false_iff]
      intro h
      cases h with
      | cons h => exact absurd hab (lt_irrefl a)
      | rel h => exact absurd h hab'

/-- Computation deciding Mathlib's `a < b` on strings directly. -/
def keyLt (a b : String) : Bool := strLtB a.data b.data

theorem keyLt_iff (a b : String) : keyLt a b = true ↔ a < b := by
  rw [String.lt_iff_toList_lt]
  exact strLtB_iff a.data b.data

theorem keyLt_false_iff (a b : String) : keyLt a b = false ↔ ¬a < b := by
  rw [← keyLt_iff, Bool.not_eq_true]

instance strDecLt : DecidableRel ((· < ·) : String → String → Prop) := fun a b =>
  decidable_of_iff (keyLt a b = true) (keyLt_iff a b)

instance strDecLe : DecidableRel ((· ≤ ·) : String → String → Prop) := fun a b =>
  decidable_of_iff (keyLt b a = false) (keyLt_false_iff b a)

/-- Dictionary lookup `d[k]` on a children map. -/
def getChild : Tree → String → Option Node
  | [], _ => none
  | (k, n) :: rest, key => if key = k then some n else getChild rest key

/-- Dictionary assignment `d[k] = v` on a children map: replace the binding of `k` if present,
otherwise insert `k` at its sorted position.  On key-sorted lists this
is exactly Python dictionary assignment up to the canonical ordering of
the representation. -/
def setChild : Tree → String → Node → Tree
  | [], key, v => [(key, v)]
  | (k, n) :: rest, key, v =>
    if key = k then (key, v) :: rest
    else if key < k then (key, v) :: (k, n) :: rest
    else (k, n) :: setChild rest key v

/-- Python's `path.split("/")` on the character list: splits at every
`'/'`, keeping empty pieces, and yields `[""]` on the empty string. -/
def splitSlash : List Char → List String
  | [] => [""]
  | c :: cs =>
    if c = '/' then "" :: splitSlash cs
    else
      match splitSlash cs with
      | [] => [String.mk [c]]
      | s :: rest => String.mk (c :: s.data) :: rest

/-- The segment list of an entry path, `item["path"].split("/")`. -/
def segsOf (path : String) : List String := splitSlash path.data

/-- Processing of one `item` of the loop body of `url_tree_dict`:

```python
parts = item["path"].split("/")
node = tree_dict
for p in parts[:-1]:
    node = node.setdefault(p, {})
if item["type"] == "tree":
    node.setdefault(parts[-1], {})
else:
    node[parts[-1]] = None
```

The walk down `parts[:-1]` uses `setdefault(p, {})`; when the existing
value of `p` is `None` the walk binds `node = None` and the next
dictionary operation raises (`AttributeError`/`TypeError`), which is the
`none` result here.  An empty `parts` list cannot arise from `split`;
Python would raise `IndexError` on `parts[-1]`, hence `none`. -/
def insertEntry : List String → Bool → Tree → Option Tree
  | [], _, _ => none
  | p :: rest, isTree, t =>
    match rest with
    | [] =>
      if isTree then
        match getChild t p with
        | some _ => some t
        | none => some (setChild t p (.dir []))
      else some (setChild t p .file)
    | _ :: _ =>
      match getChild t p with
      | some (.dir c) => (insertEntry rest isTree c).map fun c2 => setChild t p (.dir c2)
      | some .file => none
      | none => (insertEntry rest isTree []).map fun c2 => setChild t p (.dir c2)

/-- One iteration of the `for item in file_list` loop, short-circuiting
once an iteration has raised. -/
def stepEntry (acc : Option Tree) (e : TreeEntry) : Option Tree :=
  acc.bind fun t => insertEntry (segsOf e.path) (e.type == "tree") t

/-- The pure core of `url_tree_dict`: builds the nested tree dictionary
from the flat entry list (the fetch part is factored out; see
`url_tree_dict_model`).  `none` means the Python code raised. -/
def url_tree_dict_pure (entries : List TreeEntry) : Option Tree :=
  entries.foldl stepEntry (some [])

/-! ## Sizes, used as the termination measure of the renderer -/

mutual
/-- Size of a node (positive). -/
def Node.size : Node → Nat
  | .file => 1
  | .dir c => 1 + sizeT c
/-- Size of a children list (counts one per element plus child sizes). -/
def sizeT : List (String × Node) → Nat
  | [] => 0
  | (_, n) :: rest => 1 + n.size + sizeT rest
end

theorem sizeT_append (l₁ l₂ : List (String × Node)) :
    sizeT (l₁ ++ l₂) = sizeT l₁ + sizeT l₂ := by
  induction l₁ with
  | nil => simp [sizeT]
  | cons h t ih => cases h; simp [sizeT, ih]; omega

theorem sizeT_perm {l₁ l₂ : List (String × Node)} (h : l₁.Perm l₂) :
    sizeT l₁ = sizeT l₂ := by
  induction h with
  | nil => rfl
  | cons x _ ih => cases x; simp [sizeT, ih]
  | swap x y _ => cases x; cases y; simp [sizeT]; omega
  | trans _ _ ih₁ ih₂ => omega

/-! ## The renderer (`url_tree_string`) -/

/-- Is this node a directory (`isinstance(node, dict)`)? -/
def Node.isDirN : Node → Bool
  | .file => false
  | .dir _ => true

/-- The comparison used to sort children by name, as Python's
`sorted` on the key strings. -/
def keyLE (a b : String × Node) : Prop := a.1 ≤ b.1

instance : DecidableRel keyLE := fun a b => strDecLe a.1 b.1

instance : IsTotal (String × Node) keyLE :=
  ⟨fun a b => le_total a.1 b.1⟩

instance : IsTrans (String × Node) keyLE :=
  ⟨fun _ _ _ h₁ h₂ => le_trans h₁ h₂⟩

/-- The order in which `url_tree_string` visits the children of one
directory node:

```python
folders = sorted([k for k, v in node.items() if isinstance(v, dict)])
files = sorted([k for k, v in node.items() if v is None])
keys = folders + files
```

The source sorts the two key lists and then looks each key up in the
dictionary; since a Python dictionary has no duplicate keys, this is the
same as sorting the (key, child) pairs of each group by key. -/
def orderedChildren (t : Tree) : Tree :=
  (t.filter fun kv => kv.2.isDirN).insertionSort keyLE
    ++ (t.filter fun kv => !kv.2.isDirN).insertionSort keyLE

theorem orderedChildren_perm (t : Tree) : (orderedChildren t).Perm t :=
  ((List.perm_insertionSort keyLE _).append
    (List.perm_insertionSort keyLE _)).trans (List.filter_append_perm _ t)

theorem sizeT_orderedChildren (t : Tree) : sizeT (orderedChildren t) = sizeT t :=
  sizeT_perm (orderedChildren_perm t)

/-- The indentation prefix of one output line, from the ancestor
`depth_info` flags (`"    "` for a last sibling, `"│   "` otherwise):

```python
for is_last in depth_info[:-1]:
    indent += "    " if is_last else "│   "
```

A child's `depth_info` is its parent's list extended by its own
`is_last` flag, so `depth_info[:-1]` is exactly the parent's list, which
is the `depth` parameter below. -/
def indentOf (depth : List Bool) : String :=
  String.join (depth.map fun isLast => if isLast then "    " else "│   ")

mutual
/-- Rendering of the subtree below one (already printed) node. -/
def renderNode (n : Node) (depth : List Bool) : String :=
  match n with
  | .file => ""
  | .dir c => renderSeq (orderedChildren c) depth
termination_by n.size
decreasing_by
  simp [Node.size, sizeT_orderedChildren]

/-- Rendering of a sequence of sibling (name, node) pairs, in order:
each sibling's own line (indent, connector `└── `/`├── `, name, and a
trailing `/` for directories) followed by its subtree.  `depth` is the
shared ancestor `depth_info` of these siblings. -/
def renderSeq (l : List (String × Node)) (depth : List Bool) : String :=
  match l with
  | [] => ""
  | (k, n) :: rest =>
    let isLast := rest.isEmpty
    let branch := if isLast then "└── " else "├── "
    let suffix := if n.isDirN then "/\n" else "\n"
    indentOf depth ++ branch ++ k ++ suffix
      ++ renderNode n (depth ++ [isLast]) ++ renderSeq rest depth
termination_by sizeT l
decreasing_by
  all_goals simp [sizeT]
  all_goals omega
end

/-- The pure core of `url_tree_string`: renders a built tree dictionary
as the indented string, starting with the synthetic `"Root\n"` line.
The source drives the same depth-first, children-in-`orderedChildren`-
order traversal with an explicit stack, pushing the children of each
popped node in reverse so that they pop in order. -/
def url_tree_string_pure (t : Tree) : String :=
  "Root\n" ++ renderSeq (orderedChildren t) []

/-- Composition of `url_tree_dict` and `url_tree_string` on a given entry list
(the composition the spec calls `build` then `render`); `none` when
building raised. -/
def build_render (entries : List TreeEntry) : Option String :=
  (url_tree_dict_pure entries).map url_tree_string_pure

/-! ## Path lookup in a built tree -/

/-- Lookup of a (non-empty) segment path in a nested tree dictionary:
descends through directory nodes; an empty path or a missing/file
intermediate node yields `none`. -/
def lookupPath : List String → Tree → Option Node
  | [], _ => none
  | k :: rest, t =>
    match rest with
    | [] => getChild t k
    | _ :: _ =>
      match getChild t k with
      | some (.dir c) => lookupPath rest c
      | _ => none

/-! ## Basic dictionary algebra -/

theorem getChild_setChild_self (t : Tree) (k : String) (v : Node) :
    getChild (setChild t k v) k = some v := by
  induction t with
  | nil => simp [setChild, getChild]
  | cons hd rest ih =>
    obtain ⟨k', n'⟩ := hd
    by_cases h : k = k'
    · subst h; simp [setChild, getChild]
    · simp only [setChild, if_neg h]
      by_cases h2 : k < k'
      · simp [h2, getChild]
      · simp [h2, getChild, h, ih]

theorem getChild_setChild_ne (t : Tree) (k k' : String) (v : Node) (h : k' ≠ k) :
    getChild (setChild t k v) k' = getChild t k' := by
  induction t with
  | nil => simp [setChild, getChild, h]
  | cons hd rest ih =>
    obtain ⟨k₀, n₀⟩ := hd
    by_cases h1 : k = k₀
    · subst h1; simp [setChild, getChild, h]
    · simp only [setChild, if_neg h1]
      by_cases h2 : k < k₀
      · simp [h2, getChild, h]
      · simp only [h2, if_false, getChild]
        by_cases h3 : k' = k₀
        · simp [h3]
        · simp [h3, ih]

theorem setChild_setChild_self (t : Tree) (k : String) (v w : Node) :
    setChild (setChild t k v) k w = setChild t k w := by
  induction t with
  | nil => simp [setChild]
  | cons hd rest ih =>
    obtain ⟨k₀, n₀⟩ := hd
    by_cases h1 : k = k₀
    · subst h1; simp [setChild]
    · simp only [setChild, if_neg h1]
      by_cases h2 : k < k₀
      · simp [setChild, h2, lt_irrefl]
      · simp [setChild, h1, h2, ih]

theorem setChild_comm (t : Tree) (k k' : String) (v v' : Node) (h : k ≠ k') :
    setChild (setChild t k v) k' v' = setChild (setChild t k' v') k v := by
  induction t with
  | nil =>
    simp only [setChild]
    rcases lt_trichotomy k k' with h1 | h1 | h1
    · simp [setChild, h, h.symm, h1, h.symm, not_lt_of_gt h1]
    · exact absurd h1 h
    · simp [setChild, h, h.symm, h1, h, not_lt_of_gt h1]
  | cons hd rest ih =>
    obtain ⟨k₀, n₀⟩ := hd
    by_cases e1 : k = k₀
    · subst e1
      simp only [setChild, if_pos rfl, if_neg h.symm]
      by_cases l1 : k' < k
      · simp [setChild, h, h.symm, h.symm, l1, not_lt_of_gt l1, if_pos rfl]
      · simp [setChild, h, h.symm, h.symm, l1, if_pos rfl]
    · by_cases e2 : k' = k₀
      · subst e2
        simp only [setChild, if_pos rfl, if_neg h]
        by_cases l1 : k < k'
        · simp [setChild, h, h.symm, h, l1, not_lt_of_gt l1, if_pos rfl]
        · simp [setChild, h, h.symm, h, l1, if_pos rfl]
      · simp only [setChild, if_neg e1, if_neg e2]
        by_cases l1 : k < k₀
        · by_cases l2 : k' < k₀
          · rcases lt_trichotomy k k' with h3 | h3 | h3
            · simp [setChild, h, h.symm, e1, e2, l1, l2, h3, h.symm, not_lt_of_gt h3]
            · exact absurd h3 h
            · simp [setChild, h, h.symm, e1, e2, l1, l2, h3, h, not_lt_of_gt h3]
          · have h3 : k < k' := by
              rcases lt_trichotomy k k' with h3 | h3 | h3
              · exact h3
              · exact absurd h3 h
              · exact absurd (lt_trans h3 l1) l2
            simp [setChild, h, h.symm, e1, e2, l1, l2, h3, h.symm, not_lt_of_gt h3]
        · by_cases l2 : k' < k₀
          · have h3 : k' < k := by
              rcases lt_trichotomy k' k with h3 | h3 | h3
              · exact h3
              · exact absurd h3 h.symm
              · exact absurd (lt_trans h3 l2) l1
            simp [setChild, h, h.symm, e1, e2, l1, l2, h3, h, not_lt_of_gt h3]
          · simp [setChild, h, h.symm, e1, e2, l1, l2, ih]

/-! ## Claim C1 -/

/-- C1 (refuted as stated): on the entry list
`[("src/a.py", File), ("src/b/c.py", File)]`, building and rendering
does NOT produce the byte string shown in the spec's example (which
lists `a.py` before `b/`): the code lists the directory `b/` first. -/
theorem C1_counterexample :
    build_render [⟨"src/a.py", "blob"⟩, ⟨"src/b/c.py", "blob"⟩]
      ≠ some "Root\n└── src/\n    ├── a.py\n    └── b/\n        └── c.py\n" := by
  have h : build_render [⟨"src/a.py", "blob"⟩, ⟨"src/b/c.py", "blob"⟩]
      = some "Root\n└── src/\n    ├── b/\n    │   └── c.py\n    └── a.py\n" := by
    simp [build_render, url_tree_dict_pure, stepEntry, segsOf, splitSlash, insertEntry,
      getChild, setChild, url_tree_string_pure, orderedChildren, renderSeq, renderNode,
      indentOf, Node.isDirN, keyLE]
    rfl
  rw [h]
  decide

/-- C1 (amended): on the entry list
`[("src/a.py", File), ("src/b/c.py", File)]`, building the nested
structure and rendering it produces exactly
`"Root\n└── src/\n    ├── b/\n    │   └── c.py\n    └── a.py\n"`:
the directory `b/` is listed before the file `a.py`, per the
directories-before-files ordering. -/
theorem C1_render_example :
    build_render [⟨"src/a.py", "blob"⟩, ⟨"src/b/c.py", "blob"⟩]
      = some "Root\n└── src/\n    ├── b/\n    │   └── c.py\n    └── a.py\n" := by
  simp [build_render, url_tree_dict_pure, stepEntry, segsOf, splitSlash, insertEntry,
    getChild, setChild, url_tree_string_pure, orderedChildren, renderSeq, renderNode,
    indentOf, Node.isDirN, keyLE]
  rfl

/-! ## How a single insertion changes path lookups -/

theorem lookupPath_single (k : String) (t : Tree) :
    lookupPath [k] t = getChild t k := rfl

theorem lookupPath_cons_cons (k q : String) (qs : List String) (t : Tree) :
    lookupPath (k :: q :: qs) t =
      (match getChild t k with
       | some (.dir c) => lookupPath (q :: qs) c
       | _ => none) := rfl

theorem insertEntry_single (p : String) (b : Bool) (t : Tree) :
    insertEntry [p] b t =
      (if b then
        match getChild t p with
        | some _ => some t
        | none => some (setChild t p (.dir []))
      else some (setChild t p .file)) := rfl

theorem insertEntry_descend (p r : String) (rs : List String) (b : Bool) (t : Tree) :
    insertEntry (p :: r :: rs) b t =
      (match getChild t p with
       | some (.dir c) => (insertEntry (r :: rs) b c).map fun c2 => setChild t p (.dir c2)
       | some .file => none
       | none => (insertEntry (r :: rs) b []).map fun c2 => setChild t p (.dir c2)) := rfl

theorem lookupPath_nil_tree (Q : List String) : lookupPath Q ([] : Tree) = none := by
  cases Q with
  | nil => rfl
  | cons k rest =>
    cases rest with
    | nil => simp [lookupPath_single, getChild]
    | cons _ _ => simp [lookupPath_cons_cons, getChild]

theorem lookupPath_head_congr (k : String) (rest : List String) (t t' : Tree)
    (h : getChild t' k = getChild t k) :
    lookupPath (k :: rest) t' = lookupPath (k :: rest) t := by
  cases rest with
  | nil => simp [lookupPath_single, h]
  | cons _ _ => simp [lookupPath_cons_cons, h]

/-- Does the entry mark a directory (`item["type"] == "tree"`)? -/
def isTreeType (e : TreeEntry) : Bool := e.type == "tree"

/-- A file node found at `Q` after one insertion was already there
before it, unless this very insertion was a file-typed entry with path
exactly `Q`. -/
theorem insertEntry_file_origin :
    ∀ (parts : List String) (b : Bool) (t t' : Tree) (Q : List String),
      insertEntry parts b t = some t' →
      lookupPath Q t' = some .file →
      lookupPath Q t = some .file ∨ (b = false ∧ parts = Q) := by
  intro parts
  induction parts with
  | nil => intro b t t' Q h _; simp [insertEntry] at h
  | cons p rest ih =>
    intro b t t' Q hins hlook
    cases rest with
    | nil =>
      rw [insertEntry_single] at hins
      cases b with
      | true =>
        cases hg : getChild t p with
        | some n =>
          simp only [hg] at hins
          simp only [if_true, Option.some.injEq] at hins
          subst hins
          exact Or.inl hlook
        | none =>
          simp only [hg] at hins
          simp only [if_true, Option.some.injEq] at hins
          subst hins
          cases Q with
          | nil => simp [lookupPath] at hlook
          | cons q qrest =>
            by_cases hq : q = p
            · subst hq
              cases qrest with
              | nil => simp [lookupPath_single, getChild_setChild_self] at hlook
              | cons _ _ =>
                simp only [lookupPath_cons_cons, getChild_setChild_self] at hlook
                rw [lookupPath_nil_tree] at hlook
                exact absurd hlook (by simp)
            · rw [lookupPath_head_congr q qrest t _ (getChild_setChild_ne t p q _ hq)] at hlook
              exact Or.inl hlook
      | false =>
        simp only [if_false, Option.some.injEq, Bool.false_eq_true] at hins
        subst hins
        cases Q with
        | nil => simp [lookupPath] at hlook
        | cons q qrest =>
          by_cases hq : q = p
          · subst hq
            cases qrest with
            | nil => exact Or.inr ⟨rfl, rfl⟩
            | cons _ _ =>
              simp only [lookupPath_cons_cons, getChild_setChild_self] at hlook
              exact absurd hlook (by simp)
          · rw [lookupPath_head_congr q qrest t _ (getChild_setChild_ne t p q _ hq)] at hlook
            exact Or.inl hlook
    | cons r rest' =>
      rw [insertEntry_descend] at hins
      cases hg : getChild t p with
      | none =>
        simp only [hg] at hins
        cases hc : insertEntry (r :: rest') b [] with
        | none => rw [hc] at hins; simp at hins
        | some c2 =>
          rw [hc] at hins
          simp only [Option.map_some', Option.some.injEq] at hins
          subst hins
          cases Q with
          | nil => simp [lookupPath] at hlook
          | cons q qrest =>
            by_cases hq : q = p
            · subst hq
              cases qrest with
              | nil => simp [lookupPath_single, getChild_setChild_self] at hlook
              | cons _ _ =>
                simp only [lookupPath_cons_cons, getChild_setChild_self] at hlook
                rcases ih b [] c2 _ hc hlook with h | ⟨hb, hr⟩
                · rw [lookupPath_nil_tree] at h; exact absurd h (by simp)
                · exact Or.inr ⟨hb, by rw [hr]⟩
            · rw [lookupPath_head_congr q qrest t _ (getChild_setChild_ne t p q _ hq)] at hlook
              exact Or.inl hlook
      | some n =>
        cases n with
        | file => simp only [hg] at hins; simp at hins
        | dir c0 =>
          simp only [hg] at hins
          cases hc : insertEntry (r :: rest') b c0 with
          | none => rw [hc] at hins; simp at hins
          | some c2 =>
            rw [hc] at hins
            simp only [Option.map_some', Option.some.injEq] at hins
            subst hins
            cases Q with
            | nil => simp [lookupPath] at hlook
            | cons q qrest =>
              by_cases hq : q = p
              · subst hq
                cases qrest with
                | nil => simp [lookupPath_single, getChild_setChild_self] at hlook
                | cons _ _ =>
                  simp only [lookupPath_cons_cons, getChild_setChild_self] at hlook
                  rcases ih b c0 c2 _ hc hlook with h | ⟨hb, hr⟩
                  · exact Or.inl (by simp [lookupPath_cons_cons, hg, h])
                  · exact Or.inr ⟨hb, by rw [hr]⟩
              · rw [lookupPath_head_congr q qrest t _ (getChild_setChild_ne t p q _ hq)] at hlook
                exact Or.inl hlook


/-- A directory node at `P` survives any insertion that is not a
file-typed entry at `P` or above it. -/
theorem insertEntry_preserves_dir :
    ∀ (parts : List String) (b : Bool) (t t' : Tree) (P : List String) (c : Tree),
      insertEntry parts b t = some t' →
      lookupPath P t = some (.dir c) →
      ¬(b = false ∧ parts <+: P) →
      ∃ c', lookupPath P t' = some (.dir c') := by
  intro parts
  induction parts with
  | nil => intro b t t' P c h _ _; simp [insertEntry] at h
  | cons p rest ih =>
    intro b t t' P c hins hlook hno
    cases rest with
    | nil =>
      rw [insertEntry_single] at hins
      cases b with
      | true =>
        cases hg : getChild t p with
        | some n =>
          simp only [hg, if_true, Option.some.injEq] at hins
          subst hins
          exact ⟨c, hlook⟩
        | none =>
          simp only [hg, if_true, Option.some.injEq] at hins
          subst hins
          cases P with
          | nil => simp [lookupPath] at hlook
          | cons q qrest =>
            by_cases hq : q = p
            · subst hq
              cases qrest with
              | nil =>
                rw [lookupPath_single] at hlook
                rw [hg] at hlook
                exact absurd hlook (by simp)
              | cons _ _ =>
                simp only [lookupPath_cons_cons, hg] at hlook
                exact absurd hlook (by simp)
            · rw [← lookupPath_head_congr q qrest t _ (getChild_setChild_ne t p q _ hq)] at hlook
              exact ⟨c, hlook⟩
      | false =>
        simp only [if_false, Option.some.injEq, Bool.false_eq_true] at hins
        subst hins
        cases P with
        | nil => simp [lookupPath] at hlook
        | cons q qrest =>
          by_cases hq : q = p
          · exfalso
            subst hq
            exact hno ⟨rfl, ⟨qrest, rfl⟩⟩
          · rw [← lookupPath_head_congr q qrest t _ (getChild_setChild_ne t p q _ hq)] at hlook
            exact ⟨c, hlook⟩
    | cons r rest' =>
      rw [insertEntry_descend] at hins
      cases hg : getChild t p with
      | none =>
        simp only [hg] at hins
        cases hc : insertEntry (r :: rest') b [] with
        | none => rw [hc] at hins; simp at hins
        | some c2 =>
          rw [hc] at hins
          simp only [Option.map_some', Option.some.injEq] at hins
          subst hins
          cases P with
          | nil => simp [lookupPath] at hlook
          | cons q qrest =>
            by_cases hq : q = p
            · subst hq
              cases qrest with
              | nil =>
                rw [lookupPath_single, hg] at hlook
                exact absurd hlook (by simp)
              | cons _ _ =>
                simp only [lookupPath_cons_cons, hg] at hlook
                exact absurd hlook (by simp)
            · rw [← lookupPath_head_congr q qrest t _ (getChild_setChild_ne t p q _ hq)] at hlook
              exact ⟨c, hlook⟩
      | some n =>
        cases n with
        | file => simp only [hg] at hins; simp at hins
        | dir c0 =>
          simp only [hg] at hins
          cases hc : insertEntry (r :: rest') b c0 with
          | none => rw [hc] at hins; simp at hins
          | some c2 =>
            rw [hc] at hins
            simp only [Option.map_some', Option.some.injEq] at hins
            subst hins
            cases P with
            | nil => simp [lookupPath] at hlook
            | cons q qrest =>
              by_cases hq : q = p
              · subst hq
                cases qrest with
                | nil =>
                  refine ⟨c2, ?_⟩
                  rw [lookupPath_single, getChild_setChild_self]
                | cons q1 qtail =>
                  simp only [lookupPath_cons_cons, hg] at hlook
                  have hno' : ¬(b = false ∧ (r :: rest') <+: (q1 :: qtail)) := by
                    intro ⟨hb, hpre⟩
                    exact hno ⟨hb, List.cons_prefix_cons.mpr ⟨rfl, hpre⟩⟩
                  obtain ⟨c', hc'⟩ := ih b c0 c2 _ c hc hlook hno'
                  refine ⟨c', ?_⟩
                  simp only [lookupPath_cons_cons, getChild_setChild_self]
                  exact hc'
              · rw [← lookupPath_head_congr q qrest t _ (getChild_setChild_ne t p q _ hq)] at hlook
                exact ⟨c, hlook⟩

/-- A successful insertion leaves a directory node at every proper
ancestor of its path, and at the path itself when the entry is
tree-typed, provided there was no file node there already. -/
theorem insertEntry_establishes_dir :
    ∀ (parts : List String) (b : Bool) (t t' : Tree) (P : List String),
      insertEntry parts b t = some t' →
      P ≠ [] →
      ((P <+: parts ∧ P ≠ parts) ∨ (b = true ∧ P = parts)) →
      lookupPath P t ≠ some .file →
      ∃ c', lookupPath P t' = some (.dir c') := by
  intro parts
  induction parts with
  | nil => intro b t t' P h _ _ _; simp [insertEntry] at h
  | cons p rest ih =>
    intro b t t' P hins hPne hPev hnotfile
    -- P is a non-empty prefix of p :: rest, so its head is p
    obtain ⟨qrest, rfl, hq⟩ : ∃ qrest, P = p :: qrest ∧ qrest <+: rest := by
      rcases hPev with ⟨hpre, _⟩ | ⟨_, rfl⟩
      · rcases List.prefix_cons_iff.mp hpre with h0 | ⟨tl, rfl, htl⟩
        · exact absurd h0 hPne
        · exact ⟨tl, rfl, htl⟩
      · exact ⟨rest, rfl, List.prefix_rfl⟩
    cases rest with
    | nil =>
      -- parts = [p]; a strict nonempty prefix of [p] is impossible,
      -- so the evidence is b = true and P = [p]
      have hq' : qrest = [] := List.prefix_nil.mp hq
      subst hq'
      have hb : b = true := by
        rcases hPev with ⟨_, hne'⟩ | ⟨hb, _⟩
        · exact absurd rfl hne'
        · exact hb
      subst hb
      rw [insertEntry_single] at hins
      rw [if_pos rfl] at hins
      cases hg : getChild t p with
      | some n =>
        rw [hg, Option.some.injEq] at hins
        subst hins
        cases n with
        | file => exact absurd (by rw [lookupPath_single, hg]) hnotfile
        | dir c0 => exact ⟨c0, by rw [lookupPath_single, hg]⟩
      | none =>
        rw [hg, Option.some.injEq] at hins
        subst hins
        exact ⟨[], by rw [lookupPath_single, getChild_setChild_self]⟩
    | cons r rest' =>
      rw [insertEntry_descend] at hins
      cases hg : getChild t p with
      | none =>
        simp only [hg] at hins
        cases hc : insertEntry (r :: rest') b [] with
        | none => rw [hc] at hins; simp at hins
        | some c2 =>
          rw [hc] at hins
          simp only [Option.map_some', Option.some.injEq] at hins
          subst hins
          cases qrest with
          | nil => exact ⟨c2, by rw [lookupPath_single, getChild_setChild_self]⟩
          | cons q1 qtail =>
            have hPev' : ((q1 :: qtail) <+: (r :: rest') ∧ q1 :: qtail ≠ r :: rest')
                ∨ (b = true ∧ q1 :: qtail = r :: rest') := by
              rcases hPev with ⟨_, hne'⟩ | ⟨hb, heq⟩
              · exact Or.inl ⟨hq, fun hh => hne' (by rw [hh])⟩
              · exact Or.inr ⟨hb, by injection heq⟩
            obtain ⟨c', hc'⟩ := ih b [] c2 _ hc (by simp) hPev'
              (by rw [lookupPath_nil_tree]; simp)
            exact ⟨c', by simp only [lookupPath_cons_cons, getChild_setChild_self]; exact hc'⟩
      | some n =>
        cases n with
        | file => simp only [hg] at hins; simp at hins
        | dir c0 =>
          simp only [hg] at hins
          cases hc : insertEntry (r :: rest') b c0 with
          | none => rw [hc] at hins; simp at hins
          | some c2 =>
            rw [hc] at hins
            simp only [Option.map_some', Option.some.injEq] at hins
            subst hins
            cases qrest with
            | nil => exact ⟨c2, by rw [lookupPath_single, getChild_setChild_self]⟩
            | cons q1 qtail =>
              have hPev' : ((q1 :: qtail) <+: (r :: rest') ∧ q1 :: qtail ≠ r :: rest')
                  ∨ (b = true ∧ q1 :: qtail = r :: rest') := by
                rcases hPev with ⟨_, hne'⟩ | ⟨hb, heq⟩
                · exact Or.inl ⟨hq, fun hh => hne' (by rw [hh])⟩
                · exact Or.inr ⟨hb, by injection heq⟩
              have hnotfile' : lookupPath (q1 :: qtail) c0 ≠ some .file := by
                intro hfl
                exact hnotfile (by simp only [lookupPath_cons_cons, hg]; exact hfl)
              obtain ⟨c', hc'⟩ := ih b c0 c2 _ hc (by simp) hPev' hnotfile'
              exact ⟨c', by simp only [lookupPath_cons_cons, getChild_setChild_self]; exact hc'⟩



/-! ## Folding the whole entry list -/

theorem foldl_stepEntry_none (l : List TreeEntry) : l.foldl stepEntry none = none := by
  induction l with
  | nil => rfl
  | cons e l ih => simp [stepEntry, ih]

theorem foldl_preserves_dir :
    ∀ (l : List TreeEntry) (t t' : Tree) (P : List String) (c : Tree),
      l.foldl stepEntry (some t) = some t' →
      lookupPath P t = some (.dir c) →
      (∀ e ∈ l, ¬(isTreeType e = false ∧ segsOf e.path <+: P)) →
      ∃ c', lookupPath P t' = some (.dir c') := by
  intro l
  induction l with
  | nil =>
    intro t t' P c hf hl _
    simp only [List.foldl_nil, Option.some.injEq] at hf
    subst hf
    exact ⟨c, hl⟩
  | cons e l ih =>
    intro t t' P c hf hl hno
    rw [List.foldl_cons] at hf
    cases hs : stepEntry (some t) e with
    | none => rw [hs] at hf; rw [foldl_stepEntry_none] at hf; simp at hf
    | some t₁ =>
      rw [hs] at hf
      simp only [stepEntry, Option.bind_some] at hs
      obtain ⟨c₁, hc₁⟩ := insertEntry_preserves_dir _ _ t t₁ P c hs hl
        (fun ⟨hb, hpre⟩ => hno e (List.mem_cons_self e l) ⟨hb, hpre⟩)
      exact ih t₁ t' P c₁ hf hc₁ (fun f hff => hno f (List.mem_cons_of_mem e hff))

theorem foldl_file_origin :
    ∀ (l : List TreeEntry) (t t' : Tree) (Q : List String),
      l.foldl stepEntry (some t) = some t' →
      lookupPath Q t' = some .file →
      lookupPath Q t = some .file ∨ ∃ e ∈ l, isTreeType e = false ∧ segsOf e.path = Q := by
  intro l
  induction l with
  | nil =>
    intro t t' Q hf hl
    simp only [List.foldl_nil, Option.some.injEq] at hf
    subst hf
    exact Or.inl hl
  | cons e l ih =>
    intro t t' Q hf hl
    rw [List.foldl_cons] at hf
    cases hs : stepEntry (some t) e with
    | none => rw [hs] at hf; rw [foldl_stepEntry_none] at hf; simp at hf
    | some t₁ =>
      rw [hs] at hf
      simp only [stepEntry, Option.bind_some] at hs
      rcases ih t₁ t' Q hf hl with h₁ | ⟨f, hfmem, hftype, hfpath⟩
      · rcases insertEntry_file_origin _ _ t t₁ Q hs h₁ with h₂ | ⟨hb, hp⟩
        · exact Or.inl h₂
        · exact Or.inr ⟨e, List.mem_cons_self e l, hb, hp⟩
      · exact Or.inr ⟨f, List.mem_cons_of_mem e hfmem, hftype, hfpath⟩

/-- Main induction for claim C2: if some entry evidences `P` as a
directory and no file-typed entry has a path at or above `P`, the
final tree has a directory node at `P`. -/
theorem foldl_evidence_dir :
    ∀ (l : List TreeEntry) (t₀ t : Tree) (P : List String),
      P ≠ [] →
      l.foldl stepEntry (some t₀) = some t →
      (∃ e ∈ l, (isTreeType e = true ∧ segsOf e.path = P)
        ∨ (P <+: segsOf e.path ∧ P ≠ segsOf e.path)) →
      (∀ e ∈ l, isTreeType e = false → ¬(segsOf e.path <+: P)) →
      (∀ Q, Q <+: P → lookupPath Q t₀ ≠ some .file) →
      ∃ c, lookupPath P t = some (.dir c) := by
  intro l
  induction l with
  | nil => intro t₀ t P _ _ hev _ _; simp at hev
  | cons e l ih =>
    intro t₀ t P hPne hf hev hno hinv
    rw [List.foldl_cons] at hf
    cases hs : stepEntry (some t₀) e with
    | none => rw [hs] at hf; rw [foldl_stepEntry_none] at hf; simp at hf
    | some t₁ =>
      rw [hs] at hf
      simp only [stepEntry, Option.bind_some] at hs
      have hinv₁ : ∀ Q, Q <+: P → lookupPath Q t₁ ≠ some .file := by
        intro Q hQ hfile
        rcases insertEntry_file_origin _ _ t₀ t₁ Q hs hfile with h | ⟨hb, hp⟩
        · exact hinv Q hQ h
        · exact hno e (List.mem_cons_self e l) hb (hp ▸ hQ)
      rcases hev with ⟨f, hfmem, hfev⟩
      rcases List.mem_cons.mp hfmem with rfl | hfl
      · -- the head entry is the evidence
        have hPev : ((P <+: segsOf f.path ∧ P ≠ segsOf f.path)
            ∨ (isTreeType f = true ∧ P = segsOf f.path)) := by
          rcases hfev with ⟨hb, hp⟩ | hpre
          · exact Or.inr ⟨hb, hp.symm⟩
          · exact Or.inl hpre
        obtain ⟨c₁, hc₁⟩ := insertEntry_establishes_dir _ _ t₀ t₁ P hs hPne hPev
          (hinv P List.prefix_rfl)
        exact foldl_preserves_dir l t₁ t P c₁ hf hc₁
          (fun g hg ⟨hgb, hgpre⟩ => hno g (List.mem_cons_of_mem f hg) hgb hgpre)
      · -- the evidence lies in the tail
        exact ih t₁ t P hPne hf ⟨f, hfl, hfev⟩
          (fun g hg => hno g (List.mem_cons_of_mem e hg)) hinv₁

/-! ## Claim C2 -/

/-- C2 (refuted as stated): the entry list `[("a", Directory), ("a",
File)]` explicitly marks `a` as a directory, yet the structure built by
`url_tree_dict` maps `a` to a file leaf: a later file-typed entry
overwrites a directory node, so Directory does not take precedence over
file assignments that come after it. -/
theorem C2_counterexample :
    url_tree_dict_pure [⟨"a", "tree"⟩, ⟨"a", "blob"⟩] = some [("a", Node.file)]
      ∧ lookupPath ["a"] [("a", Node.file)] = some Node.file := by
  constructor
  · decide
  · decide

/-- C2 (amended): a path known to be a directory (by an explicit
tree-typed entry or by being a non-terminal segment of some entry's
path) is a directory node in any structure `url_tree_dict` returns,
PROVIDED no file-typed entry anywhere in the sequence has a path equal
to it or to one of its ancestors. -/
theorem C2_amended (entries : List TreeEntry) (P : List String) (t : Tree)
    (hPne : P ≠ [])
    (hev : ∃ e ∈ entries, (isTreeType e = true ∧ segsOf e.path = P)
      ∨ (P <+: segsOf e.path ∧ P ≠ segsOf e.path))
    (hno : ∀ e ∈ entries, isTreeType e = false → ¬(segsOf e.path <+: P))
    (hbuild : url_tree_dict_pure entries = some t) :
    ∃ c, lookupPath P t = some (.dir c) := by
  refine foldl_evidence_dir entries [] t P hPne hbuild hev hno ?_
  intro Q _
  rw [lookupPath_nil_tree]
  simp

/-- Witness for `C2_amended` at the entry list `[("a/b.py", File)]`
and the path `["a"]`. -/
theorem C2_amended_witness :
    ∃ c, lookupPath ["a"] [("a", Node.dir [("b.py", Node.file)])] = some (Node.dir c) :=
  C2_amended [⟨"a/b.py", "blob"⟩] ["a"] [("a", Node.dir [("b.py", Node.file)])]
    (by decide)
    ⟨⟨"a/b.py", "blob"⟩, by simp, Or.inr (by decide)⟩
    (by
      intro e he _
      simp only [List.mem_singleton] at he
      subst he
      intro hpre
      have := hpre.length_le
      simp [segsOf, splitSlash] at this)
    (by decide)



/-! ## Claim C3 -/

theorem orderedChildren_filter_dir (l : Tree) :
    (orderedChildren l).filter (fun kv => kv.2.isDirN)
      = (l.filter fun kv => kv.2.isDirN).insertionSort keyLE := by
  have hD : ∀ kv ∈ (l.filter fun kv => kv.2.isDirN).insertionSort keyLE,
      kv.2.isDirN = true := by
    intro kv hkv
    exact (List.mem_filter.mp ((List.mem_insertionSort keyLE).mp hkv)).2
  have hF : ∀ kv ∈ (l.filter fun kv => !kv.2.isDirN).insertionSort keyLE,
      kv.2.isDirN = false := by
    intro kv hkv
    have h2 := (List.mem_filter.mp ((List.mem_insertionSort keyLE).mp hkv)).2
    simpa using h2
  have h1 : ((l.filter fun kv => kv.2.isDirN).insertionSort keyLE).filter
      (fun kv => kv.2.isDirN) = (l.filter fun kv => kv.2.isDirN).insertionSort keyLE :=
    List.filter_eq_self.mpr hD
  have h2 : ((l.filter fun kv => !kv.2.isDirN).insertionSort keyLE).filter
      (fun kv => kv.2.isDirN) = [] :=
    List.filter_eq_nil_iff.mpr (fun kv hkv => by simp [hF kv hkv])
  unfold orderedChildren
  rw [List.filter_append, h1, h2, List.append_nil]

theorem orderedChildren_filter_file (l : Tree) :
    (orderedChildren l).filter (fun kv => !kv.2.isDirN)
      = (l.filter fun kv => !kv.2.isDirN).insertionSort keyLE := by
  have hD : ∀ kv ∈ (l.filter fun kv => kv.2.isDirN).insertionSort keyLE,
      kv.2.isDirN = true := by
    intro kv hkv
    exact (List.mem_filter.mp ((List.mem_insertionSort keyLE).mp hkv)).2
  have hF : ∀ kv ∈ (l.filter fun kv => !kv.2.isDirN).insertionSort keyLE,
      kv.2.isDirN = false := by
    intro kv hkv
    have h2 := (List.mem_filter.mp ((List.mem_insertionSort keyLE).mp hkv)).2
    simpa using h2
  have h1 : ((l.filter fun kv => kv.2.isDirN).insertionSort keyLE).filter
      (fun kv => !kv.2.isDirN) = [] :=
    List.filter_eq_nil_iff.mpr (fun kv hkv => by simp [hD kv hkv])
  have h2 : ((l.filter fun kv => !kv.2.isDirN).insertionSort keyLE).filter
      (fun kv => !kv.2.isDirN) = (l.filter fun kv => !kv.2.isDirN).insertionSort keyLE :=
    List.filter_eq_self.mpr (fun kv hkv => by simp [hF kv hkv])
  unfold orderedChildren
  rw [List.filter_append, h1, h2, List.nil_append]

/-- C3: the renderer emits the children of every directory node in the
order `orderedChildren`, which lists exactly the node's children with
all directory children first (in lexicographically ascending name
order) followed by all file children (in lexicographically ascending
name order), for every input tree. -/
theorem C3_render_order (l : Tree) :
    url_tree_string_pure l = "Root\n" ++ renderSeq (orderedChildren l) []
      ∧ orderedChildren l
        = (orderedChildren l).filter (fun kv => kv.2.isDirN)
            ++ (orderedChildren l).filter (fun kv => !kv.2.isDirN)
      ∧ (((orderedChildren l).filter (fun kv => kv.2.isDirN)).map Prod.fst).Sorted (· ≤ ·)
      ∧ (((orderedChildren l).filter (fun kv => !kv.2.isDirN)).map Prod.fst).Sorted (· ≤ ·)
      ∧ (orderedChildren l).Perm l
      ∧ ∀ depth, renderNode (.dir l) depth = renderSeq (orderedChildren l) depth := by
  refine ⟨rfl, ?_, ?_, ?_, orderedChildren_perm l, ?_⟩
  · rw [orderedChildren_filter_dir, orderedChildren_filter_file]
    rfl
  · rw [orderedChildren_filter_dir]
    exact List.Pairwise.map Prod.fst (fun a b h => h)
      (List.sorted_insertionSort keyLE _)
  · rw [orderedChildren_filter_file]
    exact List.Pairwise.map Prod.fst (fun a b h => h)
      (List.sorted_insertionSort keyLE _)
  · intro depth
    simp [renderNode]



/-! ## Claim C10: the built structure is a well-formed dictionary tree -/

/-- Is `k` strictly below the first key of `t` (vacuously true for the
empty map)?  Together with `wfT` this expresses strictly ascending key
order. -/
def headLt (k : String) : Tree → Bool
  | [] => true
  | (k2, _) :: _ => keyLt k k2

mutual
/-- Well-formedness of a node: directories carry well-formed children
maps. -/
def Node.wfN : Node → Bool
  | .file => true
  | .dir c => wfT c
/-- Well-formedness of a children map: keys strictly ascending (hence
no duplicates, as in a Python `dict`) and all child nodes well-formed. -/
def wfT : Tree → Bool
  | [] => true
  | (k, n) :: rest => Node.wfN n && wfT rest && headLt k rest
end

theorem headLt_setChild (h k : String) (v : Node) (t : Tree)
    (ht : headLt h t = true) (hk : keyLt h k = true) :
    headLt h (setChild t k v) = true := by
  cases t with
  | nil => simpa [setChild, headLt] using hk
  | cons hd rest =>
    obtain ⟨k0, n0⟩ := hd
    by_cases h1 : k = k0
    · subst h1; simpa [setChild, headLt] using hk
    · simp only [setChild, if_neg h1]
      by_cases h2 : k < k0
      · simpa [h2, headLt] using hk
      · simpa [h2, headLt] using ht

theorem setChild_wf (t : Tree) (k : String) (v : Node)
    (ht : wfT t = true) (hv : Node.wfN v = true) :
    wfT (setChild t k v) = true := by
  induction t with
  | nil => simp [setChild, wfT, headLt, hv]
  | cons hd rest ih =>
    obtain ⟨k0, n0⟩ := hd
    simp only [wfT, Bool.and_eq_true] at ht
    obtain ⟨⟨hn0, hrest⟩, hhead⟩ := ht
    by_cases h1 : k = k0
    · subst h1
      simp [setChild, wfT, hv, hrest, hhead]
    · simp only [setChild, if_neg h1]
      by_cases h2 : k < k0
      · have hlt : keyLt k k0 = true := (keyLt_iff k k0).mpr h2
        rw [if_pos h2]
        simp [wfT, hv, hn0, hrest, hhead, hlt,
          show headLt k ((k0, n0) :: rest) = keyLt k k0 from rfl]
      · have h3 : k0 < k := by
          rcases lt_trichotomy k k0 with h3 | h3 | h3
          · exact absurd h3 h2
          · exact absurd h3 h1
          · exact h3
        have hlt : keyLt k0 k = true := (keyLt_iff k0 k).mpr h3
        rw [if_neg h2]
        simp [wfT, hn0, ih hrest, headLt_setChild k0 k v rest hhead hlt]

theorem getChild_wf (t : Tree) (k : String) (n : Node)
    (ht : wfT t = true) (hg : getChild t k = some n) :
    Node.wfN n = true := by
  induction t with
  | nil => simp [getChild] at hg
  | cons hd rest ih =>
    obtain ⟨k0, n0⟩ := hd
    simp only [wfT, Bool.and_eq_true] at ht
    obtain ⟨⟨hn0, hrest⟩, _⟩ := ht
    by_cases h1 : k = k0
    · subst h1
      simp only [getChild, eq_self_iff_true, if_true, Option.some.injEq] at hg
      subst hg
      exact hn0
    · simp only [getChild, if_neg h1] at hg
      exact ih hrest hg

theorem insertEntry_wf :
    ∀ (parts : List String) (b : Bool) (t t' : Tree),
      wfT t = true → insertEntry parts b t = some t' → wfT t' = true := by
  intro parts
  induction parts with
  | nil => intro b t t' _ h; simp [insertEntry] at h
  | cons p rest ih =>
    intro b t t' ht hins
    cases rest with
    | nil =>
      rw [insertEntry_single] at hins
      cases b with
      | true =>
        cases hg : getChild t p with
        | some n =>
          simp only [hg, if_true, Option.some.injEq] at hins
          subst hins; exact ht
        | none =>
          simp only [hg, if_true, Option.some.injEq] at hins
          subst hins
          exact setChild_wf t p (.dir []) ht (by simp [Node.wfN, wfT])
      | false =>
        simp only [if_false, Option.some.injEq, Bool.false_eq_true] at hins
        subst hins
        exact setChild_wf t p .file ht (by simp [Node.wfN])
    | cons r rest' =>
      rw [insertEntry_descend] at hins
      cases hg : getChild t p with
      | none =>
        simp only [hg] at hins
        cases hc : insertEntry (r :: rest') b [] with
        | none => rw [hc] at hins; simp at hins
        | some c2 =>
          rw [hc] at hins
          simp only [Option.map_some', Option.some.injEq] at hins
          subst hins
          have hc2 : wfT c2 = true := ih b [] c2 (by simp [wfT]) hc
          exact setChild_wf t p (.dir c2) ht (by simpa [Node.wfN] using hc2)
      | some n =>
        cases n with
        | file => simp only [hg] at hins; simp at hins
        | dir c0 =>
          simp only [hg] at hins
          cases hc : insertEntry (r :: rest') b c0 with
          | none => rw [hc] at hins; simp at hins
          | some c2 =>
            rw [hc] at hins
            simp only [Option.map_some', Option.some.injEq] at hins
            subst hins
            have hc0 : wfT c0 = true := by
              have := getChild_wf t p (.dir c0) ht hg
              simpa [Node.wfN] using this
            have hc2 : wfT c2 = true := ih b c0 c2 hc0 hc
            exact setChild_wf t p (.dir c2) ht (by simpa [Node.wfN] using hc2)

theorem foldl_wf :
    ∀ (l : List TreeEntry) (t0 t : Tree),
      wfT t0 = true → l.foldl stepEntry (some t0) = some t → wfT t = true := by
  intro l
  induction l with
  | nil =>
    intro t0 t h hf
    simp only [List.foldl_nil, Option.some.injEq] at hf
    subst hf; exact h
  | cons e l ih =>
    intro t0 t h hf
    rw [List.foldl_cons] at hf
    cases hs : stepEntry (some t0) e with
    | none => rw [hs] at hf; rw [foldl_stepEntry_none] at hf; simp at hf
    | some t₁ =>
      rw [hs] at hf
      simp only [stepEntry, Option.bind_some] at hs
      exact ih t₁ t (insertEntry_wf _ _ t0 t₁ h hs) hf

/-- C10: whenever `url_tree_dict` returns a structure (does not raise),
that structure is a well-formed dictionary tree: at every depth the
children form a proper dictionary (strictly ascending, duplicate-free
keys) whose values are again directory nodes or file leaves. -/
theorem C10_wellformed (entries : List TreeEntry) (t : Tree)
    (h : url_tree_dict_pure entries = some t) : wfT t = true :=
  foldl_wf entries [] t rfl h

/-- Witness for `C10_wellformed` on a concrete entry list. -/
theorem C10_wellformed_witness :
    wfT [("a", Node.dir [("b.py", Node.file)])] = true :=
  C10_wellformed [⟨"a/b.py", "blob"⟩] [("a", Node.dir [("b.py", Node.file)])] (by decide)



/-! ## Claim C4: order-independence of the build

The key step is that two single-entry insertions commute whenever
neither is a file-typed entry whose path lies strictly above the
other's path. -/

/-- The child dictionary the descent step continues into at key `x`:
the existing directory, a fresh empty one when the key is absent, and
`none` (raise) when the key holds a file leaf. -/
def childAt (t : Tree) (x : String) : Option Tree :=
  match getChild t x with
  | some (.dir c) => some c
  | some .file => none
  | none => some []

theorem insertEntry_descend_childAt (x r : String) (rs : List String) (b : Bool) (t : Tree) :
    insertEntry (x :: r :: rs) b t
      = (childAt t x).bind fun c =>
          (insertEntry (r :: rs) b c).map fun c2 => setChild t x (.dir c2) := by
  rw [insertEntry_descend]
  unfold childAt
  cases getChild t x with
  | none => simp
  | some n => cases n <;> simp

theorem childAt_setChild_ne (t : Tree) (x y : String) (v : Node) (h : y ≠ x) :
    childAt (setChild t x v) y = childAt t y := by
  unfold childAt
  rw [getChild_setChild_ne t x y v h]

theorem childAt_setChild_self_dir (t : Tree) (x : String) (c : Tree) :
    childAt (setChild t x (.dir c)) x = some c := by
  unfold childAt
  rw [getChild_setChild_self]

theorem descend_descend_same (x r₁ r₂ : String) (rs₁ rs₂ : List String)
    (b₁ b₂ : Bool) (t : Tree) :
    (insertEntry (x :: r₁ :: rs₁) b₁ t).bind (insertEntry (x :: r₂ :: rs₂) b₂)
      = (childAt t x).bind fun cx =>
          ((insertEntry (r₁ :: rs₁) b₁ cx).bind (insertEntry (r₂ :: rs₂) b₂)).map
            fun c => setChild t x (.dir c) := by
  rw [insertEntry_descend_childAt]
  cases hcx : childAt t x with
  | none => simp
  | some cx =>
    simp only [Option.some_bind]
    cases hc1 : insertEntry (r₁ :: rs₁) b₁ cx with
    | none => simp
    | some c1 =>
      simp only [Option.map_some', Option.some_bind]
      rw [insertEntry_descend_childAt, childAt_setChild_self_dir]
      simp only [Option.some_bind]
      cases hc2 : insertEntry (r₂ :: rs₂) b₂ c1 with
      | none => simp
      | some c2 => simp [setChild_setChild_self]



theorem insertEntry_single_comm_same (x : String) (b₁ b₂ : Bool) (t : Tree) :
    (insertEntry [x] b₁ t).bind (insertEntry [x] b₂)
      = (insertEntry [x] b₂ t).bind (insertEntry [x] b₁) := by
  cases b₁ <;> cases b₂ <;>
    cases hg : getChild t x <;>
      simp [insertEntry_single, hg, getChild_setChild_self, setChild_setChild_self]

theorem insertEntry_single_comm_ne (x y : String) (b₁ b₂ : Bool) (t : Tree)
    (hxy : x ≠ y) :
    (insertEntry [x] b₁ t).bind (insertEntry [y] b₂)
      = (insertEntry [y] b₂ t).bind (insertEntry [x] b₁) := by
  have hyx : y ≠ x := hxy.symm
  have gyx : ∀ v, getChild (setChild t x v) y = getChild t y :=
    fun v => getChild_setChild_ne t x y v hyx
  have gxy : ∀ v, getChild (setChild t y v) x = getChild t x :=
    fun v => getChild_setChild_ne t y x v hxy
  have scomm : ∀ v w, setChild (setChild t x v) y w = setChild (setChild t y w) x v :=
    fun v w => setChild_comm t x y v w hxy
  cases b₁ <;> cases b₂ <;>
    cases hgx : getChild t x <;> cases hgy : getChild t y <;>
      simp [insertEntry_single, hgx, hgy, gyx, gxy, scomm]

theorem single_descend_same (x r : String) (rs : List String) (b₂ : Bool) (t : Tree) :
    (insertEntry [x] true t).bind (insertEntry (x :: r :: rs) b₂)
      = (insertEntry (x :: r :: rs) b₂ t).bind (insertEntry [x] true) := by
  cases hg : getChild t x with
  | some n =>
    cases n with
    | file =>
      have h1 : insertEntry [x] true t = some t := by
        rw [insertEntry_single]
        simp [hg]
      have h2 : insertEntry (x :: r :: rs) b₂ t = none := by
        rw [insertEntry_descend]
        simp [hg]
      rw [h1, h2, Option.some_bind, h2, Option.none_bind]
    | dir c0 =>
      have h1 : insertEntry [x] true t = some t := by
        rw [insertEntry_single]
        simp [hg]
      rw [h1, Option.some_bind]
      cases hR : insertEntry (x :: r :: rs) b₂ t with
      | none => simp
      | some t₂ =>
        rw [Option.some_bind]
        rw [insertEntry_descend_childAt] at hR
        have hcx : childAt t x = some c0 := by unfold childAt; rw [hg]
        rw [hcx, Option.some_bind] at hR
        cases hc2 : insertEntry (r :: rs) b₂ c0 with
        | none => rw [hc2] at hR; simp at hR
        | some c2 =>
          rw [hc2, Option.map_some', Option.some.injEq] at hR
          subst hR
          rw [insertEntry_single]
          simp [getChild_setChild_self]
  | none =>
    have h1 : insertEntry [x] true t = some (setChild t x (.dir [])) := by
      rw [insertEntry_single]
      simp [hg]
    have hcx : childAt t x = some [] := by unfold childAt; rw [hg]
    rw [h1, Option.some_bind]
    rw [insertEntry_descend_childAt, childAt_setChild_self_dir, Option.some_bind]
    rw [insertEntry_descend_childAt, hcx, Option.some_bind]
    cases hc2 : insertEntry (r :: rs) b₂ [] with
    | none => simp
    | some c2 =>
      simp only [Option.map_some', Option.some_bind]
      rw [setChild_setChild_self, insertEntry_single]
      simp [getChild_setChild_self]

theorem single_descend_ne (x y r : String) (rs : List String) (b₁ b₂ : Bool) (t : Tree)
    (hxy : x ≠ y) :
    (insertEntry [x] b₁ t).bind (insertEntry (y :: r :: rs) b₂)
      = (insertEntry (y :: r :: rs) b₂ t).bind (insertEntry [x] b₁) := by
  have hyx : y ≠ x := hxy.symm
  -- the single-segment insertion always succeeds; name its result
  have hsingle : ∀ u : Tree, insertEntry [x] b₁ u
      = some (if b₁ ∧ (getChild u x).isSome then u
              else setChild u x (if b₁ then .dir [] else .file)) := by
    intro u
    rw [insertEntry_single]
    cases b₁ <;> cases hgu : getChild u x <;> simp [hgu]
  cases hcy : childAt t y with
  | none =>
    -- descending at y raises, in either order
    have h2 : insertEntry (y :: r :: rs) b₂ t = none := by
      rw [insertEntry_descend_childAt, hcy]; rfl
    rw [hsingle t, Option.some_bind, h2, Option.none_bind]
    rw [insertEntry_descend_childAt]
    have : childAt (if b₁ ∧ (getChild t x).isSome then t
        else setChild t x (if b₁ then .dir [] else .file)) y = none := by
      by_cases hcond : b₁ ∧ (getChild t x).isSome
      · rw [if_pos hcond]; exact hcy
      · rw [if_neg hcond, childAt_setChild_ne t x y _ hyx]; exact hcy
    rw [this, Option.none_bind]
  | some cy =>
    cases hc2 : insertEntry (r :: rs) b₂ cy with
    | none =>
      -- the recursive insertion below y raises, in either order
      have h2 : insertEntry (y :: r :: rs) b₂ t = none := by
        rw [insertEntry_descend_childAt, hcy, Option.some_bind, hc2]; rfl
      rw [hsingle t, Option.some_bind, h2, Option.none_bind]
      rw [insertEntry_descend_childAt]
      have hcy' : childAt (if b₁ ∧ (getChild t x).isSome then t
          else setChild t x (if b₁ then .dir [] else .file)) y = some cy := by
        by_cases hcond : b₁ ∧ (getChild t x).isSome
        · rw [if_pos hcond]; exact hcy
        · rw [if_neg hcond, childAt_setChild_ne t x y _ hyx]; exact hcy
      rw [hcy', Option.some_bind, hc2]
      simp
    | some c2 =>
      have h2 : insertEntry (y :: r :: rs) b₂ t = some (setChild t y (.dir c2)) := by
        rw [insertEntry_descend_childAt, hcy, Option.some_bind, hc2, Option.map_some']
      rw [hsingle t, Option.some_bind, h2, Option.some_bind]
      rw [insertEntry_descend_childAt]
      have hcy' : childAt (if b₁ ∧ (getChild t x).isSome then t
          else setChild t x (if b₁ then .dir [] else .file)) y = some cy := by
        by_cases hcond : b₁ ∧ (getChild t x).isSome
        · rw [if_pos hcond]; exact hcy
        · rw [if_neg hcond, childAt_setChild_ne t x y _ hyx]; exact hcy
      rw [hcy', Option.some_bind, hc2, Option.map_some']
      rw [hsingle (setChild t y (.dir c2))]
      rw [getChild_setChild_ne t y x _ hxy]
      by_cases hcond : b₁ ∧ (getChild t x).isSome
      · rw [if_pos hcond, if_pos hcond]
      · rw [if_neg hcond, if_neg hcond, setChild_comm t y x _ _ hyx]



/-- Two insertions commute whenever neither is a file-typed entry whose
path is a proper ancestor of the other's path. -/
theorem insertEntry_comm :
    ∀ (p₁ p₂ : List String) (b₁ b₂ : Bool) (t : Tree),
      (b₁ = false → ¬(p₁ <+: p₂ ∧ p₁ ≠ p₂)) →
      (b₂ = false → ¬(p₂ <+: p₁ ∧ p₂ ≠ p₁)) →
      (insertEntry p₁ b₁ t).bind (insertEntry p₂ b₂)
        = (insertEntry p₂ b₂ t).bind (insertEntry p₁ b₁) := by
  intro p₁
  induction p₁ with
  | nil =>
    intro p₂ b₁ b₂ t _ _
    have h1 : ∀ u : Tree, insertEntry ([] : List String) b₁ u = none := fun u => rfl
    rw [h1, Option.none_bind]
    cases h : insertEntry p₂ b₂ t with
    | none => rfl
    | some u => rw [Option.some_bind, h1]
  | cons x xs ih =>
    intro p₂ b₁ b₂ t hok₁ hok₂
    cases p₂ with
    | nil =>
      have h2 : ∀ u : Tree, insertEntry ([] : List String) b₂ u = none := fun u => rfl
      rw [h2, Option.none_bind]
      cases h : insertEntry (x :: xs) b₁ t with
      | none => rfl
      | some u => rw [Option.some_bind, h2]
    | cons y ys =>
      cases xs with
      | nil =>
        cases ys with
        | nil =>
          by_cases hxy : x = y
          · subst hxy
            exact insertEntry_single_comm_same x b₁ b₂ t
          · exact insertEntry_single_comm_ne x y b₁ b₂ t hxy
        | cons r rs =>
          by_cases hxy : x = y
          · subst hxy
            cases b₁ with
            | false => exact absurd ⟨⟨r :: rs, rfl⟩, by simp⟩ (hok₁ rfl)
            | true => exact single_descend_same x r rs b₂ t
          · exact single_descend_ne x y r rs b₁ b₂ t hxy
      | cons r₁ rs₁ =>
        cases ys with
        | nil =>
          by_cases hxy : y = x
          · subst hxy
            cases b₂ with
            | false => exact absurd ⟨⟨r₁ :: rs₁, rfl⟩, by simp⟩ (hok₂ rfl)
            | true => exact (single_descend_same y r₁ rs₁ b₁ t).symm
          · exact (single_descend_ne y x r₁ rs₁ b₂ b₁ t hxy).symm
        | cons r₂ rs₂ =>
          by_cases hxy : x = y
          · subst hxy
            rw [descend_descend_same, descend_descend_same]
            cases hcx : childAt t x with
            | none => rfl
            | some cx =>
              rw [Option.some_bind, Option.some_bind]
              have hok₁' : b₁ = false →
                  ¬((r₁ :: rs₁) <+: (r₂ :: rs₂) ∧ r₁ :: rs₁ ≠ r₂ :: rs₂) := by
                intro hb hpair
                exact hok₁ hb ⟨List.cons_prefix_cons.mpr ⟨rfl, hpair.1⟩, by simp [hpair.2]⟩
              have hok₂' : b₂ = false →
                  ¬((r₂ :: rs₂) <+: (r₁ :: rs₁) ∧ r₂ :: rs₂ ≠ r₁ :: rs₁) := by
                intro hb hpair
                exact hok₂ hb ⟨List.cons_prefix_cons.mpr ⟨rfl, hpair.1⟩, by simp [hpair.2]⟩
              exact congrArg (Option.map fun c => setChild t x (.dir c))
                (ih (r₂ :: rs₂) b₁ b₂ cx hok₁' hok₂')
          · -- distinct heads: the two descents are fully independent
            have hyx : y ≠ x := fun h => hxy h.symm
            cases hcx : childAt t x with
            | none =>
              have hx : insertEntry (x :: r₁ :: rs₁) b₁ t = none := by
                rw [insertEntry_descend_childAt, hcx]; rfl
              rw [hx, Option.none_bind, insertEntry_descend_childAt]
              cases hcy : childAt t y with
              | none => simp
              | some cy =>
                rw [Option.some_bind]
                cases h2 : insertEntry (r₂ :: rs₂) b₂ cy with
                | none => simp
                | some c2 =>
                  simp only [Option.map_some', Option.some_bind]
                  have hz : insertEntry (x :: r₁ :: rs₁) b₁ (setChild t y (.dir c2)) = none := by
                    rw [insertEntry_descend_childAt, childAt_setChild_ne t y x _ hxy, hcx]; rfl
                  rw [hz]
            | some cx =>
              cases h1 : insertEntry (r₁ :: rs₁) b₁ cx with
              | none =>
                have hx : insertEntry (x :: r₁ :: rs₁) b₁ t = none := by
                  rw [insertEntry_descend_childAt, hcx, Option.some_bind, h1]; rfl
                rw [hx, Option.none_bind, insertEntry_descend_childAt]
                cases hcy : childAt t y with
                | none => simp
                | some cy =>
                  rw [Option.some_bind]
                  cases h2 : insertEntry (r₂ :: rs₂) b₂ cy with
                  | none => simp
                  | some c2 =>
                    simp only [Option.map_some', Option.some_bind]
                    have hz : insertEntry (x :: r₁ :: rs₁) b₁ (setChild t y (.dir c2)) = none := by
                      rw [insertEntry_descend_childAt, childAt_setChild_ne t y x _ hxy, hcx,
                        Option.some_bind, h1]; rfl
                    rw [hz]
              | some c1 =>
                have hx : insertEntry (x :: r₁ :: rs₁) b₁ t = some (setChild t x (.dir c1)) := by
                  rw [insertEntry_descend_childAt, hcx, Option.some_bind, h1, Option.map_some']
                rw [hx, Option.some_bind, insertEntry_descend_childAt,
                  childAt_setChild_ne t x y _ hyx, insertEntry_descend_childAt]
                cases hcy : childAt t y with
                | none => simp
                | some cy =>
                  rw [Option.some_bind, Option.some_bind]
                  cases h2 : insertEntry (r₂ :: rs₂) b₂ cy with
                  | none => simp
                  | some c2 =>
                    simp only [Option.map_some', Option.some_bind]
                    have hz : insertEntry (x :: r₁ :: rs₁) b₁ (setChild t y (.dir c2))
                        = some (setChild (setChild t y (.dir c2)) x (.dir c1)) := by
                      rw [insertEntry_descend_childAt, childAt_setChild_ne t y x _ hxy, hcx,
                        Option.some_bind, h1, Option.map_some']
                    rw [hz, setChild_comm t x y _ _ hxy]

/-- Pairwise well-formedness of an entry list: no file-typed entry has
a path that is a proper segment-ancestor of another entry's path.
Real GitHub recursive listings always satisfy this (files never have
entries below them). -/
def entriesOk (l : List TreeEntry) : Prop :=
  ∀ e ∈ l, ∀ f ∈ l, isTreeType e = false →
    ¬(segsOf e.path <+: segsOf f.path ∧ segsOf e.path ≠ segsOf f.path)

theorem stepEntry_comm (e f : TreeEntry)
    (hef : isTreeType e = false →
      ¬(segsOf e.path <+: segsOf f.path ∧ segsOf e.path ≠ segsOf f.path))
    (hfe : isTreeType f = false →
      ¬(segsOf f.path <+: segsOf e.path ∧ segsOf f.path ≠ segsOf e.path)) :
    ∀ z : Option Tree, stepEntry (stepEntry z e) f = stepEntry (stepEntry z f) e := by
  intro z
  cases z with
  | none => rfl
  | some t =>
    show ((insertEntry (segsOf e.path) (isTreeType e) t).bind
        (insertEntry (segsOf f.path) (isTreeType f)))
      = ((insertEntry (segsOf f.path) (isTreeType f) t).bind
        (insertEntry (segsOf e.path) (isTreeType e)))
    exact insertEntry_comm (segsOf e.path) (segsOf f.path)
      (isTreeType e) (isTreeType f) t hef hfe



/-- C4 (refuted as stated): the entry lists `[("a", File), ("a/b",
File)]` and `[("a/b", File), ("a", File)]` are permutations of each
other, yet `url_tree_dict` raises on the first (it descends through the
file node at `a`) and returns a structure on the second, so the results
differ. -/
theorem C4_counterexample :
    ([⟨"a", "blob"⟩, ⟨"a/b", "blob"⟩] : List TreeEntry).Perm
        [⟨"a/b", "blob"⟩, ⟨"a", "blob"⟩]
      ∧ url_tree_dict_pure [⟨"a", "blob"⟩, ⟨"a/b", "blob"⟩]
          ≠ url_tree_dict_pure [⟨"a/b", "blob"⟩, ⟨"a", "blob"⟩] := by
  refine ⟨List.Perm.swap (⟨"a/b", "blob"⟩ : TreeEntry) ⟨"a", "blob"⟩ [], ?_⟩
  decide

/-- C4 (amended): on entry lists in which no file-typed entry's path is
a proper segment-ancestor of another entry's path — which holds for
every well-formed listing — `url_tree_dict` gives equal structures and
`url_tree_string` byte-identical strings for any permutation of the
entries. -/
theorem C4_amended (l₁ l₂ : List TreeEntry) (hperm : l₁.Perm l₂) (hok : entriesOk l₁) :
    url_tree_dict_pure l₁ = url_tree_dict_pure l₂
      ∧ build_render l₁ = build_render l₂ := by
  have hbase : url_tree_dict_pure l₁ = url_tree_dict_pure l₂ := by
    unfold url_tree_dict_pure
    exact hperm.foldl_eq'
      (fun e he f hf z => stepEntry_comm e f (hok e he f hf) (hok f hf e he) z)
      (some [])
  exact ⟨hbase, congrArg (Option.map url_tree_string_pure) hbase⟩

/-- Witness for `C4_amended` on a concrete well-formed pair of
permuted entry lists. -/
theorem C4_amended_witness :
    url_tree_dict_pure [⟨"a/b.py", "blob"⟩, ⟨"a", "tree"⟩]
        = url_tree_dict_pure [⟨"a", "tree"⟩, ⟨"a/b.py", "blob"⟩]
      ∧ build_render [⟨"a/b.py", "blob"⟩, ⟨"a", "tree"⟩]
        = build_render [⟨"a", "tree"⟩, ⟨"a/b.py", "blob"⟩] :=
  C4_amended [⟨"a/b.py", "blob"⟩, ⟨"a", "tree"⟩] [⟨"a", "tree"⟩, ⟨"a/b.py", "blob"⟩]
    (List.Perm.swap (⟨"a", "tree"⟩ : TreeEntry) ⟨"a/b.py", "blob"⟩ [])
    (by unfold entriesOk; decide)



/-! ## URL parsing (`parse_github_repo_url`, `url_check`)

The source delegates to CPython's `urllib.parse.urlparse`; the
functions below embed the relevant behavior of `urlsplit`/`urlparse`
from CPython 3.11 (scheme detection, netloc splitting, the
mismatched-IPv6-bracket `ValueError`, fragment/query stripping, and
parameter splitting).  A raised `ValueError` is the `none` result.

Two further CPython raise paths exist only for netlocs that can never
equal `github.com` (malformed bracketed hosts, and non-ASCII netlocs
whose NFKC normalization introduces separators); in both situations
`parse_github_repo_url` either propagates the error or returns
`(None, None)`, and no claim below distinguishes the two, so they are
modelled as parsing normally. -/

/-- The result record of `urlparse` (the fields the source reads). -/
structure ParseResult where
  scheme : String
  netloc : String
  path : String
  params : String
  query : String
  fragment : String
deriving DecidableEq

/-- CPython `scheme_chars`: ASCII letters, digits, and `+-.`. -/
def isSchemeChar (c : Char) : Bool :=
  c.isAlpha || c.isDigit || c = '+' || c = '-' || c = '.'

/-- The schemes for which `urlparse` splits `;parameters` from the last
path segment (CPython `uses_params`). -/
def usesParams : List String :=
  ["", "ftp", "hdl", "prospero", "http", "imap", "https", "shttp", "rtsp",
   "rtspu", "sip", "sips", "mms", "sftp", "tel"]

/-- CPython `urlsplit` (3.11): strips `\t\r\n`, detects the scheme,
splits the netloc after `//`, raises `ValueError` on a mismatched IPv6
bracket, then strips fragment and query.  `none` models the raise. -/
def urlsplitModel (url : String) : Option ParseResult :=
  let cs0 := url.data.filter fun c => !(c = '\t' || c = '\r' || c = '\n')
  let schemeSplit : String × List Char :=
    match cs0.findIdx? (· = ':') with
    | some i =>
      if 0 < i then
        if (match cs0 with | c :: _ => c.isAlpha | [] => false)
            && (cs0.take i).all isSchemeChar then
          (String.mk ((cs0.take i).map Char.toLower), cs0.drop (i + 1))
        else ("", cs0)
      else ("", cs0)
    | none => ("", cs0)
  let scheme := schemeSplit.1
  let cs1 := schemeSplit.2
  let netlocSplit : List Char × List Char :=
    match cs1 with
    | '/' :: '/' :: rest =>
      match rest.findIdx? fun c => c = '/' || c = '?' || c = '#' with
      | some i => (rest.take i, rest.drop i)
      | none => (rest, [])
    | _ => ([], cs1)
  let netloc := netlocSplit.1
  let cs2 := netlocSplit.2
  if (netloc.elem '[' && !netloc.elem ']') || (netloc.elem ']' && !netloc.elem '[') then
    none
  else
    let fragSplit : List Char × List Char :=
      match cs2.findIdx? (· = '#') with
      | some i => (cs2.take i, cs2.drop (i + 1))
      | none => (cs2, [])
    let querySplit : List Char × List Char :=
      match fragSplit.1.findIdx? (· = '?') with
      | some i => (fragSplit.1.take i, fragSplit.1.drop (i + 1))
      | none => (fragSplit.1, [])
    some ⟨scheme, String.mk netloc, String.mk querySplit.1, "",
      String.mk querySplit.2, String.mk fragSplit.2⟩

/-- CPython `_splitparams`: split `;parameters` off the last path
segment (only at or after the last `/`). -/
def splitParamsModel (cs : List Char) : List Char × List Char :=
  if '/' ∈ cs then
    let j := cs.length - 1 -
      (match cs.reverse.findIdx? (· = '/') with | some k => k | none => 0)
    match (cs.drop j).findIdx? (· = ';') with
    | some i => (cs.take (j + i), cs.drop (j + i + 1))
    | none => (cs, [])
  else
    match cs.findIdx? (· = ';') with
    | some i => (cs.take i, cs.drop (i + 1))
    | none => (cs, [])

/-- CPython `urlparse`: `urlsplit` plus parameter splitting for the
schemes in `usesParams`. -/
def urlparseModel (url : String) : Option ParseResult :=
  (urlsplitModel url).map fun sr =>
    if sr.scheme ∈ usesParams ∧ ';' ∈ sr.path.data then
      let ps := splitParamsModel sr.path.data
      { sr with path := String.mk ps.1, params := String.mk ps.2 }
    else sr

/-- Python `s.strip("/")`: drop all leading and trailing slashes. -/
def stripSlashes (cs : List Char) : List Char :=
  ((cs.dropWhile (· = '/')).reverse.dropWhile (· = '/')).reverse

/-- The body of `parse_github_repo_url` after `urlparse` returned:

```python
paths = parsed.path.strip("/").split("/")
if parsed.scheme != "https": return None, None
if parsed.netloc != "github.com": return None, None
if len(paths) < 2: return None, None
owner, repo = paths[0], paths[1]
if not owner or not repo: return None, None
return owner, repo
``` -/
def parseCore (parsed : ParseResult) : Option String × Option String :=
  let paths := splitSlash (stripSlashes parsed.path.data)
  if parsed.scheme ≠ "https" then (none, none)
  else if parsed.netloc ≠ "github.com" then (none, none)
  else if paths.length < 2 then (none, none)
  else
    match paths with
    | owner :: repo :: _ =>
      if owner = "" then (none, none)
      else if repo = "" then (none, none)
      else (some owner, some repo)
    | _ => (none, none)

/-- The function `parse_github_repo_url`: `none` when `urlparse` raised, otherwise
the returned `(owner, repo)` pair (with `(None, None)` for invalid
URLs). -/
def parse_github_repo_url (url : String) : Option (Option String × Option String) :=
  (urlparseModel url).map parseCore

/-- Python truthiness of `owner and repo` for optional strings. -/
def truthyStr (s : Option String) : Bool :=
  match s with
  | none => false
  | some s => s ≠ ""

/-- The function `url_check`, i.e. `bool(owner and repo)`; `none` when parsing raised. -/
def url_check (url : String) : Option Bool :=
  (parse_github_repo_url url).map fun p => truthyStr p.1 && truthyStr p.2

-- sanity checks of the URL model against CPython behavior
example : urlparseModel "https://github.com/acme/widgets/tree/main"
    = some ⟨"https", "github.com", "/acme/widgets/tree/main", "", "", ""⟩ := by decide
example : parse_github_repo_url "https://github.com/acme/widgets/tree/main"
    = some (some "acme", some "widgets") := by decide
example : parse_github_repo_url "https://[" = none := by decide
example : parse_github_repo_url "http://github.com/a/b" = some (none, none) := by decide
example : parse_github_repo_url "https://gitlab.com/a/b" = some (none, none) := by decide
example : parse_github_repo_url "https://github.com/a" = some (none, none) := by decide
example : parse_github_repo_url "https://github.com//a//b/" = some (none, none) := by decide
example : parse_github_repo_url "https://github.com/a/b;x" = some (some "a", some "b") := by decide
example : url_check "https://github.com/a/b" = some true := by decide



/-! ## Claims C5, C6, C9 -/

/-- C5 (the code violates the claim): on the input `"https://["`,
CPython's `urlparse` raises `ValueError("Invalid IPv6 URL")` (the
netloc contains `[` without `]`), so `parse_github_repo_url` and
`url_check` propagate an exception instead of returning `(None, None)`
respectively `False` as their docstrings and the spec require. -/
theorem C5_raises_on_invalid_ipv6 :
    parse_github_repo_url "https://[" = none ∧ url_check "https://[" = none :=
  ⟨by decide, by decide⟩

/-- Every value `parseCore` can return is `(None, None)` or a pair of
two non-empty strings. -/
theorem parseCore_shape (p : ParseResult) :
    parseCore p = (none, none)
      ∨ ∃ o n, parseCore p = (some o, some n) ∧ o ≠ "" ∧ n ≠ "" := by
  unfold parseCore
  cases hp : splitSlash (stripSlashes p.path.data) with
  | nil => simp only [hp]; split_ifs <;> exact Or.inl rfl
  | cons a tl =>
    cases tl with
    | nil => simp only [hp]; split_ifs <;> simp_all
    | cons b tl2 =>
      simp only [hp]
      split_ifs with h1 h2 h3 h4 h5
      · exact Or.inl rfl
      · exact Or.inl rfl
      · exact Or.inl rfl
      · exact Or.inl rfl
      · exact Or.inl rfl
      · exact Or.inr ⟨a, b, rfl, h4, h5⟩

/-- C9: whenever `parse_github_repo_url` returns normally, it returns
either `(None, None)` or two non-empty strings; never a half-`None`
pair and never an empty component. -/
theorem C9_return_shape (url : String) (r : Option String × Option String)
    (h : parse_github_repo_url url = some r) :
    r = (none, none) ∨ ∃ o n, r = (some o, some n) ∧ o ≠ "" ∧ n ≠ "" := by
  unfold parse_github_repo_url at h
  cases hu : urlparseModel url with
  | none => rw [hu] at h; simp at h
  | some p =>
    rw [hu, Option.map_some', Option.some.injEq] at h
    subst h
    exact parseCore_shape p

/-- Witness for `C9_return_shape` at a concrete URL. -/
theorem C9_return_shape_witness :
    ((some "a", some "b") : Option String × Option String) = (none, none)
      ∨ ∃ o n, ((some "a", some "b") : Option String × Option String)
          = (some o, some n) ∧ o ≠ "" ∧ n ≠ "" :=
  C9_return_shape "https://github.com/a/b" (some "a", some "b") (by decide)

/-- C6: for every URL that `urlparse` decomposes with scheme exactly
`https`, host exactly `github.com`, and whose path — after trimming
slashes and splitting on `/` — begins with two non-empty segments,
`parse_github_repo_url` returns exactly those two segments, whatever
further segments follow. -/
theorem C6_first_two_segments (url : String) (p : ParseResult)
    (hparse : urlparseModel url = some p)
    (hscheme : p.scheme = "https")
    (hhost : p.netloc = "github.com")
    (owner repo : String) (rest : List String)
    (hsegs : splitSlash (stripSlashes p.path.data) = owner :: repo :: rest)
    (howner : owner ≠ "") (hrepo : repo ≠ "") :
    parse_github_repo_url url = some (some owner, some repo) := by
  unfold parse_github_repo_url
  rw [hparse, Option.map_some', Option.some.injEq]
  unfold parseCore
  simp only [hsegs, hscheme, hhost]
  simp [howner, hrepo]

/-- Witness for `C6_first_two_segments`: the spec's example
`https://github.com/acme/widgets/tree/main` yields `(acme, widgets)`;
the trailing `tree/main` segments are ignored. -/
theorem C6_first_two_segments_witness :
    parse_github_repo_url "https://github.com/acme/widgets/tree/main"
      = some (some "acme", some "widgets") :=
  C6_first_two_segments "https://github.com/acme/widgets/tree/main"
    ⟨"https", "github.com", "/acme/widgets/tree/main", "", "", ""⟩
    (by decide) rfl rfl "acme" "widgets" ["tree", "main"]
    (by decide) (by decide) (by decide)



/-! ## Claims C7, C8: branch resolution and tree listing

`url_tree_list` performs network requests through `github_api_get`;
these are abstracted by an oracle environment: `branchSha b` models a
`GET /repos/{owner}/{repo}/branches/{b}` returning the commit SHA
`json()["commit"]["sha"]` (and `none` models any failure — request
exception or non-200 status); `treeResp sha` models
`GET /repos/{owner}/{repo}/git/trees/{sha}?recursive=1`, with the inner
option recording whether the decoded response has a `"tree"` field
(`response.json().get("tree", [])`). -/

structure FetchEnv where
  branchSha : String → Option String
  treeResp : String → Option (Option (List TreeEntry))

/-- The `for branch in branches_to_try` loop of `url_tree_list`,
returning the resolved SHA (if any) and the list of branches actually
queried, in order. -/
def resolveLoop (fetchBranch : String → Option String) : List String → Option String × List String
  | [] => (none, [])
  | b :: rest =>
    match fetchBranch b with
    | some sha => (some sha, [b])
    | none =>
      let r := resolveLoop fetchBranch rest
      (r.1, b :: r.2)

/-- The candidate list `branches_to_try = ["main", "master"]`. -/
def branches_to_try : List String := ["main", "master"]

/-- The function `url_tree_list` over the oracle environment: the first component is
the returned (optional) entry list, the second the log of branch
lookups issued.  `validUrl` stands for the `url_check` guard. -/
def url_tree_list_model (validUrl : Bool) (env : FetchEnv) :
    Option (List TreeEntry) × List String :=
  if validUrl = false then (none, [])
  else
    let r := resolveLoop env.branchSha branches_to_try
    match r.1 with
    | none => (none, r.2)
    | some sha =>
      if sha = "" then (none, r.2)
      else
        match env.treeResp sha with
        | none => (none, r.2)
        | some payload => (some (payload.getD []), r.2)

/-- C7: branch resolution queries `main` first and stops at the first
success; if `main` resolves, exactly one lookup happens and its SHA
drives the tree request; if only `master` resolves, exactly the two
lookups `["main", "master"]` happen and the second SHA drives the tree
request; if both fail, no tree is returned. -/
theorem C7_branch_resolution (env : FetchEnv) :
    (∀ s, env.branchSha "main" = some s →
      (url_tree_list_model true env).2 = ["main"]
        ∧ (s ≠ "" → (url_tree_list_model true env).1
            = (env.treeResp s).map fun payload => payload.getD []))
      ∧ (∀ s, env.branchSha "main" = none → env.branchSha "master" = some s →
          (url_tree_list_model true env).2 = ["main", "master"]
            ∧ (s ≠ "" → (url_tree_list_model true env).1
                = (env.treeResp s).map fun payload => payload.getD []))
      ∧ (env.branchSha "main" = none → env.branchSha "master" = none →
          url_tree_list_model true env = (none, ["main", "master"])) := by
  refine ⟨?_, ?_, ?_⟩
  · intro s hmain
    unfold url_tree_list_model branches_to_try
    simp only [resolveLoop, hmain]
    constructor
    · by_cases hs : s = ""
      · simp [hs]
      · cases ht : env.treeResp s <;> simp [hs, ht]
    · intro hs
      cases ht : env.treeResp s <;> simp [hs, ht]
  · intro s hmain hmaster
    unfold url_tree_list_model branches_to_try
    simp only [resolveLoop, hmain, hmaster]
    constructor
    · by_cases hs : s = ""
      · simp [hs]
      · cases ht : env.treeResp s <;> simp [hs, ht]
    · intro hs
      cases ht : env.treeResp s <;> simp [hs, ht]
  · intro hmain hmaster
    unfold url_tree_list_model branches_to_try
    simp [resolveLoop, hmain, hmaster]

/-- Witness for `C7_branch_resolution`: a repository with only `main`,
and one with only `master`. -/
theorem C7_branch_resolution_witness :
    (url_tree_list_model true
        ⟨fun b => if b = "main" then some "abc" else none, fun _ => some (some [])⟩).2
      = ["main"]
      ∧ (url_tree_list_model true
          ⟨fun b => if b = "master" then some "abc" else none, fun _ => some (some [])⟩).2
        = ["main", "master"] :=
  ⟨((C7_branch_resolution
      ⟨fun b => if b = "main" then some "abc" else none, fun _ => some (some [])⟩).1
        "abc" (by decide)).1,
   (((C7_branch_resolution
      ⟨fun b => if b = "master" then some "abc" else none, fun _ => some (some [])⟩).2.1)
        "abc" (by decide) (by decide)).1⟩

/-- C8: when the tree-listing response decodes but has no `"tree"`
field, `url_tree_list` returns the empty sequence rather than raising,
and building/rendering from it yields the empty structure and the bare
`"Root\n"` line — no partial tree is produced. -/
theorem C8_missing_tree_field (env : FetchEnv) (sha : String)
    (hmain : env.branchSha "main" = some sha) (hsha : sha ≠ "")
    (hresp : env.treeResp sha = some none) :
    (url_tree_list_model true env).1 = some []
      ∧ url_tree_dict_pure [] = some []
      ∧ url_tree_string_pure [] = "Root\n" := by
  refine ⟨?_, rfl, ?_⟩
  · unfold url_tree_list_model branches_to_try
    simp [resolveLoop, hmain, hsha, hresp]
  · unfold url_tree_string_pure orderedChildren
    simp [renderSeq]

/-- Witness for `C8_missing_tree_field`. -/
theorem C8_missing_tree_field_witness :
    (url_tree_list_model true
        ⟨fun b => if b = "main" then some "abc" else none, fun _ => some none⟩).1
      = some []
      ∧ url_tree_dict_pure [] = some []
      ∧ url_tree_string_pure [] = "Root\n" :=
  C8_missing_tree_field
    ⟨fun b => if b = "main" then some "abc" else none, fun _ => some none⟩
    "abc" (by decide) (by decide) (by decide)


end Github
